import Mathlib

/-!
Verification of the media-ingestion sampling / packing / cue-synthesis core.

The `MediaTime` value type is embedded from `src/util/media_time.rs`; the
decode-loop driver is embedded from `src/main.rs`.  The sprite-sheet module
(`SpritesheetManager`, `SpriteSheet`, tile geometry) is declared and driven by
`src/main.rs` but its own source file is not part of the tree, so those
definitions are modelled from the specification (sections 4.2-4.4) and are
marked as such in their doc comments.

Machine integers are embedded as `Int` with explicit two-complement wrapping
where Rust release-profile arithmetic wraps; Rust division and remainder on
signed integers truncate toward zero and are embedded as `Int.tdiv` and
`Int.tmod`.
-/

/-- Two-complement wrap of an integer into the signed 64-bit range, as the
Rust `as i64` cast behaves on an i128 value. -/
def wrapI64 (x : Int) : Int :=
  (x + 2 ^ 63) % 2 ^ 64 - 2 ^ 63

/-- Two-complement wrap of an integer into the signed 128-bit range, as Rust
release-profile i128 multiplication behaves on overflow. -/
def wrapI128 (x : Int) : Int :=
  (x + 2 ^ 127) % 2 ^ 128 - 2 ^ 127

/-- Sign of a value of the `fraction` crate type `GenericFraction<u64>`. -/
inductive Sign where
  | plus
  | minus
deriving DecidableEq

/-- Embedding of the `fraction` crate type `Fraction = GenericFraction<u64>`:
either a signed ratio of two u64 values (the denominator is nonzero for any
value built through the crate constructors), a signed infinity, or NaN. -/
inductive Fraction where
  | rational (sign : Sign) (num den : Nat)
  | infinity (sign : Sign)
  | nan
deriving DecidableEq

/-- `Fraction::numer()`: defined only for finite rationals. -/
def Fraction.numer : Fraction → Option Nat
  | .rational _ n _ => some n
  | _ => none

/-- `Fraction::denom()`: defined only for finite rationals. -/
def Fraction.denom : Fraction → Option Nat
  | .rational _ _ d => some d
  | _ => none

/-- `Fraction::new(num, den)` on u64 inputs: a zero denominator yields NaN
(zero numerator) or infinity, otherwise the ratio is stored reduced. -/
def Fraction.new (num den : Nat) : Fraction :=
  if den = 0 then
    if num = 0 then .nan else .infinity .plus
  else
    .rational .plus (num / Nat.gcd num den) (den / Nat.gcd num den)

/-- Embedding of `MediaTime(time::Duration)`.  Every constructor in the source
produces a whole number of milliseconds, so the wrapped duration is embedded by
its signed millisecond count.  The derived ordering on `time::Duration` is
chronological, i.e. the order of this count. -/
structure MediaTime where
  millis : Int
deriving DecidableEq

instance : LT MediaTime := ⟨fun a b => a.millis < b.millis⟩

instance : LE MediaTime := ⟨fun a b => a.millis ≤ b.millis⟩

instance (a b : MediaTime) : Decidable (a < b) :=
  inferInstanceAs (Decidable (a.millis < b.millis))

instance (a b : MediaTime) : Decidable (a ≤ b) :=
  inferInstanceAs (Decidable (a.millis ≤ b.millis))

instance : Add MediaTime := ⟨fun a b => ⟨a.millis + b.millis⟩⟩

instance : Sub MediaTime := ⟨fun a b => ⟨a.millis - b.millis⟩⟩

deriving instance DecidableEq for Except

/-- Embedding of `MediaTime::from_millis`. -/
def MediaTime.from_millis (timestamp : Int) : MediaTime :=
  ⟨timestamp⟩

/-- Embedding of `MediaTime::from_seconds`. -/
def MediaTime.from_seconds (timestamp : Int) : MediaTime :=
  ⟨timestamp * 1000⟩

/-- Embedding of `MediaTime::from_rational(timestamp, base)`: extract the
numerator and denominator of the time base (failing with the source error
message when the base is not a finite rational; the sign of the base is
ignored by the source, which dereferences the u64 components), then compute
`(1000 * timestamp as i128 * num as i128 / den as i128) as i64` milliseconds.
Rust release-profile integer semantics: the i128 products wrap on overflow,
the division truncates toward zero, and the `as i64` cast wraps. -/
def MediaTime.from_rational (timestamp : Int) (base : Fraction) :
    Except String MediaTime :=
  match base.numer, base.denom with
  | some num, some den =>
      .ok ⟨wrapI64 (Int.tdiv (wrapI128 (wrapI128 (1000 * timestamp) * (num : Int)))
        (den : Int))⟩
  | _, _ => .error ("time base of unusable format")

/-- Embedding of `Duration::whole_seconds` on a whole-millisecond duration:
Rust i64 division truncates toward zero. -/
def MediaTime.whole_seconds (t : MediaTime) : Int :=
  Int.tdiv t.millis 1000

/-- Embedding of `Duration::subsec_milliseconds` on a whole-millisecond
duration: the stored nanosecond field carries the sign of the duration, so
this is the toward-zero remainder of the millisecond count by 1000. -/
def MediaTime.subsec_milliseconds (t : MediaTime) : Int :=
  Int.tmod t.millis 1000

/-- Embedding of Rust `{:02}` formatting: zero-padded to width two, the sign
counting toward the width and the padding inserted after it. -/
def pad2 (n : Int) : String :=
  if 0 ≤ n ∧ n < 10 then "0" ++ toString n
  else toString n

/-- Embedding of Rust `{:03}` formatting: zero-padded to width three, the sign
counting toward the width and the padding inserted after it. -/
def pad3 (n : Int) : String :=
  if 0 ≤ n ∧ n < 10 then "00" ++ toString n
  else if 0 ≤ n ∧ n < 100 then "0" ++ toString n
  else if -10 < n ∧ n < 0 then "-0" ++ toString (-n)
  else toString n

/-- Embedding of the `Display` impl for `MediaTime`: milliseconds, seconds,
minutes and hours fields, printed `MM:SS.mmm` when the hours field is zero and
`HH:MM:SS.mmm` otherwise. -/
def MediaTime.display (t : MediaTime) : String :=
  let z := t.subsec_milliseconds
  let s := Int.tmod t.whole_seconds 60
  let m := Int.tmod (Int.tdiv t.whole_seconds 60) 60
  let h := Int.tdiv t.whole_seconds 3600
  if h = 0 then pad2 m ++ ":" ++ pad2 s ++ "." ++ pad3 z
  else pad2 h ++ ":" ++ pad2 m ++ ":" ++ pad2 s ++ "." ++ pad3 z

/-- Modelled from the spec: the cue-index timestamp format of section 6 —
"start/end timestamps (formatted `HH:MM:SS.mmm`, hours omitted when zero)",
with two-digit zero-padded hours, minutes and seconds and three-digit
milliseconds, stated for a non-negative whole-millisecond timestamp. -/
def specTimestampFormat (ms : Nat) : String :=
  let h := ms / 3600000
  let m := ms / 60000 % 60
  let s := ms / 1000 % 60
  let f := ms % 1000
  if h = 0 then pad2 m ++ ":" ++ pad2 s ++ "." ++ pad3 f
  else pad2 h ++ ":" ++ pad2 m ++ ":" ++ pad2 s ++ "." ++ pad3 f

/-- Errors of the sampling/packing pipeline (spec section 7). -/
inductive SheetError where
  | SheetFull
  | AlreadyInitialized
  | NotActive
  | SizeMismatch
  | DurationBeforeLastSample
deriving DecidableEq

/-- Round-to-nearest integer division (ties rounding up): the nearest integer
to `a / b` for positive `b`. -/
def roundDiv (a b : Nat) : Nat :=
  (2 * a + b) / (2 * b)

/-- Modelled from the spec: the tile geometry resolver of section 4.2 (the
sprite-sheet source file is not part of src/).  Given the natural dimensions of
the source frame and the `max_size` bound, a source already within the bound
passes through unscaled (downscale only); otherwise the larger dimension
becomes `max_size` and the other scales by the same ratio rounded to the
nearest pixel, with a floor of one pixel per dimension.  Pure and
deterministic by construction. -/
def resolveTileSize (width height max_size : Nat) : Nat × Nat :=
  if width ≤ max_size ∧ height ≤ max_size then (width, height)
  else if height ≤ width then (max_size, max 1 (roundDiv (height * max_size) width))
  else (max 1 (roundDiv (width * max_size) height), max_size)

/-- A grid slot: the (row, col) cursor position inside a sprite sheet. -/
structure Slot where
  row : Nat
  col : Nat
deriving DecidableEq

/-- Modelled from the spec: cursor advance after a placement — col+1, wrapping
to the start of the next row when col reaches `num_horizontal`
(section 4.3). -/
def advanceSlot (num_horizontal : Nat) (s : Slot) : Slot :=
  if s.col + 1 = num_horizontal then ⟨s.row + 1, 0⟩ else ⟨s.row, s.col + 1⟩

/-- Modelled from the spec: a sprite sheet — its index and its `next_slot`
cursor (section 4.3).  The pixel canvas is written by the external engine and
carries no information the claims need, so it is not modelled. -/
structure SpriteSheet where
  sheet_index : Nat
  next_slot : Slot
deriving DecidableEq

/-- Modelled from the spec: `is_full()` — true when `next_slot.row ==
num_vertical`. -/
def SpriteSheet.isFull (sheet : SpriteSheet) (num_vertical : Nat) : Bool :=
  sheet.next_slot.row == num_vertical

/-- Modelled from the spec: `rect_for_slot(slot)` — the absolute pixel
rectangle of a grid slot: offset `(col * tile_width, row * tile_height)`,
extent one tile. -/
def rectForSlot (tile : Nat × Nat) (s : Slot) : Nat × Nat × Nat × Nat :=
  (s.col * tile.1, s.row * tile.2, tile.1, tile.2)

/-- Modelled from the spec: `place(image)` — fails with `SheetFull` when
`next_slot.row == num_vertical`, otherwise yields the slot the image landed in
and the sheet with its cursor advanced. -/
def SpriteSheet.place (sheet : SpriteSheet) (num_horizontal num_vertical : Nat) :
    Except SheetError (Slot × SpriteSheet) :=
  if sheet.next_slot.row = num_vertical then .error .SheetFull
  else .ok (sheet.next_slot,
    { sheet with next_slot := advanceSlot num_horizontal sheet.next_slot })

/-- Modelled from the spec: a cue — `end_` is `none` while the cue is open
(section 3; `end` is a reserved word in Lean). -/
structure Cue where
  start : MediaTime
  end_ : Option MediaTime
  sheet_index : Nat
  rect : Nat × Nat × Nat × Nat
deriving DecidableEq

/-- Modelled from the spec: close the open cue when one exists.  The open cue
is always the last of the list; its `end` becomes the given timestamp. -/
def closeOpenCue (cues : List Cue) (t : MediaTime) : List Cue :=
  match cues.getLast? with
  | some c => if c.end_ = none then cues.dropLast ++ [{ c with end_ := some t }]
              else cues
  | none => cues

/-- The three states of the manager state machine (spec section 4.4). -/
inductive ManagerState where
  | uninitialized
  | active
  | closed
deriving DecidableEq

/-- Modelled from the spec: the `SpritesheetManager` (sections 3 and 4.4) —
configuration, state-machine state, lazily resolved tile size, owned sheets
(the current sheet is the last element), the cue list (the open cue, when any,
is the last element) and the last accepted timestamp (meaningful once a sample
has been accepted).  `trace` records the (sheet index, slot) of each placement
in order, as placement history for stating the packing properties; output
directory and image format are persistence configuration and are not
modelled. -/
structure SpritesheetManager where
  max_size : Nat
  num_horizontal : Nat
  num_vertical : Nat
  frame_interval : MediaTime
  state : ManagerState
  tile_size : Option (Nat × Nat)
  sheets : List SpriteSheet
  cues : List Cue
  last_timestamp : MediaTime
  trace : List (Nat × Slot)
deriving DecidableEq

/-- Modelled from the spec: `SpritesheetManager::new(max_size, num_horizontal,
num_vertical, frame_interval, output)` — a fresh `Uninitialized` manager (the
output path is persistence configuration, not modelled). -/
def SpritesheetManager.new (max_size num_horizontal num_vertical : Nat)
    (frame_interval : MediaTime) : SpritesheetManager :=
  { max_size := max_size
    num_horizontal := num_horizontal
    num_vertical := num_vertical
    frame_interval := frame_interval
    state := .uninitialized
    tile_size := none
    sheets := []
    cues := []
    last_timestamp := MediaTime.from_millis 0
    trace := [] }

/-- Modelled from the spec: `initialized()` — true once `initialize` has run
(probed by the decode loop in `main.rs`). -/
def SpritesheetManager.initialized (m : SpritesheetManager) : Bool :=
  m.state != .uninitialized

/-- Modelled from the spec: `fulfils_frame_interval(timestamp)` — pure
sampling predicate, true iff the manager is still `Uninitialized` (the first
sample is always accepted) or the candidate timestamp is at least
`frame_interval` after the last accepted one (section 4.4). -/
def SpritesheetManager.fulfils_frame_interval (m : SpritesheetManager)
    (timestamp : MediaTime) : Bool :=
  match m.state with
  | .uninitialized => true
  | _ => decide (m.frame_interval ≤ timestamp - m.last_timestamp)

/-- Modelled from the spec: `initialize(source_width, source_height)` —
callable only while `Uninitialized`; resolves the tile size, allocates sheet
0, transitions to `Active`.  Fails with `AlreadyInitialized` otherwise,
leaving the state untouched.  Errors are returned next to the (possibly
unchanged) manager, mirroring a `&mut self` method returning `Result`. -/
def SpritesheetManager.initialize (m : SpritesheetManager)
    (source_width source_height : Nat) : Option SheetError × SpritesheetManager :=
  match m.state with
  | .uninitialized =>
      (none, { m with
        state := .active
        tile_size := some (resolveTileSize source_width source_height m.max_size)
        sheets := [⟨0, ⟨0, 0⟩⟩] })
  | _ => (some .AlreadyInitialized, m)

/-- Modelled from the spec: `add_image(timestamp, image)` (section 4.4) —
requires `Active` and an image matching the resolved tile size (the image
itself carries no information beyond its dimensions here).  Closes the open
cue at `timestamp`, spills over to a freshly allocated sheet when the current
one is full, places the image at the next free slot, appends the new open cue
with the placed rectangle, and remembers the accepted timestamp. -/
def SpritesheetManager.add_image (m : SpritesheetManager) (timestamp : MediaTime)
    (image_size : Nat × Nat) : Option SheetError × SpritesheetManager :=
  match m.state with
  | .active =>
    match m.tile_size with
    | some tile =>
      if image_size ≠ tile then (some .SizeMismatch, m)
      else
        let cues := closeOpenCue m.cues timestamp
        let sheets : List SpriteSheet :=
          match m.sheets.getLast? with
          | some sheet =>
              if sheet.isFull m.num_vertical
              then m.sheets ++ [⟨sheet.sheet_index + 1, ⟨0, 0⟩⟩]
              else m.sheets
          | none => [⟨0, ⟨0, 0⟩⟩]
        match sheets.getLast? with
        | some current =>
          match current.place m.num_horizontal m.num_vertical with
          | .ok (slot, placed) =>
              (none, { m with
                cues := cues ++
                  [(⟨timestamp, none, current.sheet_index, rectForSlot tile slot⟩ : Cue)]
                sheets := sheets.dropLast ++ [placed]
                last_timestamp := timestamp
                trace := m.trace ++ [(current.sheet_index, slot)] })
          | .error e => (some e, m)
        | none => (some .SheetFull, m)
    | none => (some .NotActive, m)
  | _ => (some .NotActive, m)

/-- Modelled from the spec: `end_frame(total_duration)` (section 4.4) —
requires `Active`; fails with `DurationBeforeLastSample` when the signalled
duration precedes the last accepted sample, leaving the state untouched;
otherwise closes the open cue at `total_duration` and transitions to
`Closed`. -/
def SpritesheetManager.end_frame (m : SpritesheetManager)
    (total_duration : MediaTime) : Option SheetError × SpritesheetManager :=
  match m.state with
  | .active =>
      if total_duration < m.last_timestamp then (some .DurationBeforeLastSample, m)
      else (none, { m with state := .closed, cues := closeOpenCue m.cues total_duration })
  | _ => (some .NotActive, m)

/-- One iteration of the decode-loop driver (`main.rs`, lines 93-130): probe
`fulfils_frame_interval`; on success, initialize on first use (the source
dimensions of the decoded frame resolve the tile size) and add the image,
which the external engine has rescaled to exactly the resolved tile size. -/
def driverStep (source : Nat × Nat) (m : SpritesheetManager)
    (timestamp : MediaTime) : SpritesheetManager :=
  if m.fulfils_frame_interval timestamp then
    let m₁ := if m.initialized then m else ( SpritesheetManager.initialize m source.1 source.2).2
    (m₁.add_image timestamp (m₁.tile_size.getD (0, 0))).2
  else m

/-- The decode loop of `main.rs` over a list of sample timestamps. -/
def runSamples (source : Nat × Nat) (m : SpritesheetManager)
    (ts : List MediaTime) : SpritesheetManager :=
  ts.foldl (driverStep source) m

/-- The (start, end) timing projection of a cue list. -/
def cueTimes (cues : List Cue) : List (MediaTime × Option MediaTime) :=
  cues.map fun c => (c.start, c.end_)

/-- The cue timing an accepted-sample list `a :: as` should produce while the
manager is still open: consecutive samples chained, the last cue open. -/
def openChain : MediaTime → List MediaTime → List (MediaTime × Option MediaTime)
  | t, [] => [(t, none)]
  | t, u :: rest => (t, some u) :: openChain u rest

/-- The cue timing an accepted-sample list `a :: as` should produce once the
manager is closed at `d`: consecutive samples chained, the last cue ending at
`d`. -/
def chainClosed : MediaTime → List MediaTime → MediaTime → List (MediaTime × MediaTime)
  | t, [], d => [(t, d)]
  | t, u :: rest, d => (t, u) :: chainClosed u rest d

/-- Decidable check that every timestamp of the list keeps at least `interval`
distance from its predecessor, starting from `last`. -/
def spacedFrom (interval : MediaTime) : MediaTime → List MediaTime → Bool
  | _, [] => true
  | last, t :: rest => decide (interval ≤ t - last) && spacedFrom interval t rest

/-- Decidable check that a timestamp list is strictly increasing. -/
def strictlyIncreasing : List MediaTime → Bool
  | [] => true
  | [_] => true
  | a :: b :: rest => decide (a < b) && strictlyIncreasing (b :: rest)

/-- The full pipeline of `main.rs`: feed the sample timestamps through the
decode loop, then signal the end of the stream with the total duration
(`save` is persistence and not modelled). -/
def closedRun (source : Nat × Nat) (msz nh nv : Nat) (iv : MediaTime)
    (samples : List MediaTime) (total_duration : MediaTime) :
    Option SheetError × SpritesheetManager :=
  (runSamples source (SpritesheetManager.new msz nh nv iv) samples).end_frame
    total_duration

/-- Correctness invariant of a manager that has accepted the samples
`a :: as` (in order): it is `Active`, carries the resolved tile size, its cue
timing is the open chain of the accepted samples, its last accepted timestamp
is the last of them, and the current sheet cursor is within the grid. -/
def ManagerInv (nh nv : Nat) (iv : MediaTime) (tile : Nat × Nat) (a : MediaTime)
    (as : List MediaTime) (m : SpritesheetManager) : Prop :=
  m.state = .active ∧
  m.num_horizontal = nh ∧ m.num_vertical = nv ∧ m.frame_interval = iv ∧
  m.tile_size = some tile ∧
  cueTimes m.cues = openChain a as ∧
  m.last_timestamp = as.getLastD a ∧
  ∃ rest sheet, m.sheets = rest ++ [sheet] ∧
    sheet.next_slot.col < nh ∧ sheet.next_slot.row ≤ nv

/-- A concrete `Active` manager used to witness the state-machine theorems. -/
def demoActive : SpritesheetManager :=
  { SpritesheetManager.new 160 5 5 (MediaTime.from_seconds 10) with
    state := .active
    tile_size := some (160, 90)
    sheets := [⟨0, ⟨0, 1⟩⟩]
    cues := [⟨MediaTime.from_millis 100, none, 0, (0, 0, 160, 90)⟩]
    last_timestamp := MediaTime.from_millis 100 }

/-- The packing scenario of the spec (section 8): a 3 x 2 grid fed seven
accepted frames, one per millisecond with a one-millisecond interval. -/
def demoPackingRun : SpritesheetManager :=
  runSamples (320, 240) (SpritesheetManager.new 160 3 2 (MediaTime.from_millis 1))
    ((List.range 7).map fun k => MediaTime.from_millis k)

theorem MediaTime.lt_def (a b : MediaTime) : a < b ↔ a.millis < b.millis :=
  Iff.rfl

theorem MediaTime.le_def (a b : MediaTime) : a ≤ b ↔ a.millis ≤ b.millis :=
  Iff.rfl

theorem MediaTime.sub_millis (a b : MediaTime) : (a - b).millis = a.millis - b.millis :=
  rfl

theorem MediaTime.add_millis (a b : MediaTime) : (a + b).millis = a.millis + b.millis :=
  rfl

/-- C2: `fulfils_frame_interval` is pure — a function of the state tag, the
last accepted timestamp and the configured interval only, mutating nothing —
and is true iff the manager is `Uninitialized` or the candidate timestamp is
at least `frame_interval` past the last accepted one; in particular it is true
whenever `last + interval ≤ t`, and false whenever `last < t < last + interval`
once a sample has been accepted. -/
theorem fulfils_frame_interval_spec (m : SpritesheetManager) (t : MediaTime) :
    (∀ m' : SpritesheetManager, m'.state = m.state →
        m'.last_timestamp = m.last_timestamp → m'.frame_interval = m.frame_interval →
        m'.fulfils_frame_interval t = m.fulfils_frame_interval t) ∧
    (m.fulfils_frame_interval t = true ↔
        (m.state = .uninitialized ∨ m.frame_interval ≤ t - m.last_timestamp)) ∧
    (m.last_timestamp + m.frame_interval ≤ t → m.fulfils_frame_interval t = true) ∧
    (m.state ≠ .uninitialized → m.last_timestamp < t →
        t < m.last_timestamp + m.frame_interval → m.fulfils_frame_interval t = false) := by
  refine ⟨?_, ?_, ?_, ?_⟩
  · intro m' hs hl hf
    unfold SpritesheetManager.fulfils_frame_interval
    rw [hs, hl, hf]
  · unfold SpritesheetManager.fulfils_frame_interval
    cases hs : m.state <;>
      simp [hs, MediaTime.le_def, MediaTime.sub_millis]
  · intro hle
    unfold SpritesheetManager.fulfils_frame_interval
    rw [MediaTime.le_def, MediaTime.add_millis] at hle
    cases hs : m.state <;>
      simp [MediaTime.le_def, MediaTime.sub_millis] <;> omega
  · intro hne hlt hup
    unfold SpritesheetManager.fulfils_frame_interval
    rw [MediaTime.lt_def] at hlt
    rw [MediaTime.lt_def, MediaTime.add_millis] at hup
    cases hs : m.state
    · exact absurd hs hne
    all_goals simp [MediaTime.le_def, MediaTime.sub_millis] <;> omega

/-- Witness for C2 at concrete inputs: a manager whose last accepted sample is
at 100 ms with a 10 s interval rejects a sample at 150 ms and accepts one at
10100 ms. -/
theorem fulfils_frame_interval_spec_witness :
    demoActive.fulfils_frame_interval (MediaTime.from_millis 150) = false ∧
    demoActive.fulfils_frame_interval (MediaTime.from_millis 10100) = true :=
  ⟨(fulfils_frame_interval_spec demoActive (MediaTime.from_millis 150)).2.2.2
      (by decide) (by decide) (by decide),
   (fulfils_frame_interval_spec demoActive (MediaTime.from_millis 10100)).2.2.1
      (by decide)⟩

/-- C5: on an `Active` manager, `end_frame(total_duration)` with a duration
before the last accepted sample fails with `DurationBeforeLastSample` and
returns the manager completely unchanged (still `Active`, cues and sheets
untouched); with a duration at or after the last accepted sample it succeeds,
closing the open cue at `total_duration` and transitioning to `Closed` with
everything else unchanged. -/
theorem end_frame_spec (m : SpritesheetManager) (d : MediaTime)
    (h : m.state = .active) :
    (d < m.last_timestamp → m.end_frame d = (some .DurationBeforeLastSample, m)) ∧
    (m.last_timestamp ≤ d →
        m.end_frame d =
          (none, { m with state := .closed, cues := closeOpenCue m.cues d })) := by
  constructor
  · intro hlt
    unfold SpritesheetManager.end_frame
    rw [h]
    simp only [if_pos hlt]
  · intro hle
    unfold SpritesheetManager.end_frame
    rw [h]
    have : ¬ d < m.last_timestamp := by
      rw [MediaTime.lt_def]
      rw [MediaTime.le_def] at hle
      omega
    simp only [if_neg this]

/-- Witness for C5: the demo `Active` manager (last sample at 100 ms) rejects
`end_frame 50ms` unchanged and accepts `end_frame 200ms`, closing the cue. -/
theorem end_frame_spec_witness :
    demoActive.end_frame (MediaTime.from_millis 50) =
      (some .DurationBeforeLastSample, demoActive) ∧
    demoActive.end_frame (MediaTime.from_millis 200) =
      (none, { demoActive with
        state := .closed
        cues := closeOpenCue demoActive.cues (MediaTime.from_millis 200) }) :=
  ⟨(end_frame_spec demoActive (MediaTime.from_millis 50) (by decide)).1 (by decide),
   (end_frame_spec demoActive (MediaTime.from_millis 200) (by decide)).2 (by decide)⟩

/-- C8: `from_rational` fails with the invalid-time-base error exactly on the
non-finite time bases — those built with a zero denominator, whose numerator
and denominator are not extractable — and succeeds on every well-formed
(nonzero-denominator) base; being a plain function of its arguments it has no
side effects. -/
theorem from_rational_timebase (t : Int) :
    (∀ n : Nat, 0 < n →
        MediaTime.from_rational t (Fraction.new n 0) =
          .error ("time base of unusable format")) ∧
    (MediaTime.from_rational t (Fraction.new 0 0) =
        .error ("time base of unusable format")) ∧
    (∀ n d : Nat, d ≠ 0 → ∃ mt, MediaTime.from_rational t (Fraction.new n d) = .ok mt) := by
  refine ⟨?_, ?_, ?_⟩
  · intro n hn
    unfold Fraction.new
    rw [if_pos rfl, if_neg (Nat.pos_iff_ne_zero.mp hn)]
    rfl
  · rfl
  · intro n d hd
    unfold Fraction.new
    rw [if_neg hd]
    exact ⟨_, rfl⟩

/-- Witness for C8: the stream time base 1/1000 converts tick 7 successfully;
a zero-denominator base is rejected. -/
theorem from_rational_timebase_witness :
    MediaTime.from_rational 7 (Fraction.new 3 0) =
      .error ("time base of unusable format") ∧
    ∃ mt, MediaTime.from_rational 7 (Fraction.new 1 1000) = .ok mt :=
  ⟨(from_rational_timebase 7).1 3 (by decide),
   (from_rational_timebase 7).2.2 1 1000 (by decide)⟩

theorem roundDiv_le_of_le (a b c : Nat) (hb : 0 < b) (h : a ≤ c * b) :
    roundDiv a b ≤ c := by
  unfold roundDiv
  have h2 : (2 * a + b) / (2 * b) < c + 1 :=
    (Nat.div_lt_iff_lt_mul (by omega)).mpr (by nlinarith)
  omega

/-- C4: the tile geometry resolver is a pure function of (source width, source
height, max_size); on positive inputs a source already within the bound passes
through unscaled (never upscaled), otherwise the larger output dimension
equals `max_size`; both dimensions have a floor of one pixel; and on the spec
example 1920 x 1080 with `max_size = 160` it yields (160, 90), whose larger
dimension is 160 and whose aspect ratio equals 1920/1080 exactly (so within
1%). -/
theorem resolveTileSize_spec (w h ms : Nat) (hw : 0 < w) (hh : 0 < h)
    (hm : 0 < ms) :
    (¬(w ≤ ms ∧ h ≤ ms) →
        max (resolveTileSize w h ms).1 (resolveTileSize w h ms).2 = ms) ∧
    ((w ≤ ms ∧ h ≤ ms) → resolveTileSize w h ms = (w, h)) ∧
    1 ≤ (resolveTileSize w h ms).1 ∧ 1 ≤ (resolveTileSize w h ms).2 ∧
    resolveTileSize 1920 1080 160 = (160, 90) ∧
    max 160 90 = 160 ∧ 160 * 1080 = 1920 * 90 := by
  refine ⟨?_, ?_, ?_, ?_, by decide, by decide, by decide⟩
  · intro hbig
    unfold resolveTileSize
    rw [if_neg hbig]
    by_cases hhw : h ≤ w
    · rw [if_pos hhw]
      have hr : roundDiv (h * ms) w ≤ ms :=
        roundDiv_le_of_le (h * ms) w ms hw (by nlinarith)
      exact max_eq_left (max_le hm hr)
    · rw [if_neg hhw]
      have hwh : w ≤ h := le_of_not_le hhw
      have hr : roundDiv (w * ms) h ≤ ms :=
        roundDiv_le_of_le (w * ms) h ms hh (by nlinarith)
      exact max_eq_right (max_le hm hr)
  · intro hsmall
    unfold resolveTileSize
    rw [if_pos hsmall]
  · unfold resolveTileSize
    by_cases hsmall : w ≤ ms ∧ h ≤ ms
    · rw [if_pos hsmall]; exact hw
    · rw [if_neg hsmall]
      by_cases hhw : h ≤ w
      · rw [if_pos hhw]; exact hm
      · rw [if_neg hhw]; exact le_max_left 1 _
  · unfold resolveTileSize
    by_cases hsmall : w ≤ ms ∧ h ≤ ms
    · rw [if_pos hsmall]; exact hh
    · rw [if_neg hsmall]
      by_cases hhw : h ≤ w
      · rw [if_pos hhw]; exact le_max_left 1 _
      · rw [if_neg hhw]; exact hm

/-- Witness for C4 at the spec example: source 1920 x 1080, bound 160. -/
theorem resolveTileSize_spec_witness :
    max (resolveTileSize 1920 1080 160).1 (resolveTileSize 1920 1080 160).2 = 160 :=
  (resolveTileSize_spec 1920 1080 160 (by decide) (by decide) (by decide)).1
    (by decide)

/-- C3: sprite-sheet packing is row-major with spill-over.  `place` fails, and
fails with `SheetFull`, exactly when the cursor row has reached
`num_vertical`; otherwise it writes at the cursor slot and advances col+1,
wrapping to the next row when col reaches `num_horizontal`.  Consequently, in
the 3 x 2 scenario, the 4th accepted frame lands at slot (row 1, col 0) of
sheet 0 and the 7th accepted frame triggers allocation of sheet index 1,
landing at its slot (0, 0). -/
theorem sheet_packing_rowmajor :
    (∀ (nh nv : Nat) (sheet : SpriteSheet),
        (∃ e, sheet.place nh nv = .error e) ↔ sheet.next_slot.row = nv) ∧
    (∀ (nh nv : Nat) (sheet : SpriteSheet), sheet.next_slot.row = nv →
        sheet.place nh nv = .error .SheetFull) ∧
    (∀ (nh nv : Nat) (sheet : SpriteSheet), sheet.next_slot.row ≠ nv →
        sheet.place nh nv = .ok (sheet.next_slot,
          { sheet with next_slot := advanceSlot nh sheet.next_slot })) ∧
    (∀ (nh : Nat) (s : Slot), s.col + 1 = nh → advanceSlot nh s = ⟨s.row + 1, 0⟩) ∧
    (∀ (nh : Nat) (s : Slot), s.col + 1 ≠ nh → advanceSlot nh s = ⟨s.row, s.col + 1⟩) ∧
    demoPackingRun.trace =
      [(0, ⟨0, 0⟩), (0, ⟨0, 1⟩), (0, ⟨0, 2⟩),
       (0, ⟨1, 0⟩), (0, ⟨1, 1⟩), (0, ⟨1, 2⟩), (1, ⟨0, 0⟩)] ∧
    demoPackingRun.sheets.map (fun s => s.sheet_index) = [0, 1] := by
  refine ⟨?_, ?_, ?_, ?_, ?_, by decide, by decide⟩
  · intro nh nv sheet
    unfold SpriteSheet.place
    by_cases hr : sheet.next_slot.row = nv
    · simp [hr]
    · simp [hr]
  · intro nh nv sheet hr
    unfold SpriteSheet.place
    rw [if_pos hr]
  · intro nh nv sheet hr
    unfold SpriteSheet.place
    rw [if_neg hr]
  · intro nh s hc
    unfold advanceSlot
    rw [if_pos hc]
  · intro nh s hc
    unfold advanceSlot
    rw [if_neg hc]

/-- Witness for C3: a sheet of a 3 x 2 grid whose cursor sits at (row 0,
col 2) accepts a placement there and wraps to (row 1, col 0); a sheet whose
cursor row is 2 is full and rejects placement. -/
theorem sheet_packing_rowmajor_witness :
    SpriteSheet.place ⟨0, ⟨0, 2⟩⟩ 3 2 =
      .ok (⟨0, 2⟩, ⟨0, ⟨1, 0⟩⟩) ∧
    SpriteSheet.place ⟨0, ⟨2, 0⟩⟩ 3 2 = .error .SheetFull := by
  constructor
  · have h := (sheet_packing_rowmajor).2.2.1 3 2 ⟨0, ⟨0, 2⟩⟩ (by decide)
    rw [h]
    have h2 := (sheet_packing_rowmajor).2.2.2.1 3 ⟨0, 2⟩ (by decide)
    rw [h2]
  · exact (sheet_packing_rowmajor).2.1 3 2 ⟨0, ⟨2, 0⟩⟩ (by decide)

theorem wrapI64_eq_self (x : Int) (h1 : -(2 ^ 63) ≤ x) (h2 : x < 2 ^ 63) :
    wrapI64 x = x := by
  unfold wrapI64
  omega

set_option maxRecDepth 4000 in
theorem wrapI128_eq_self (x : Int) (h1 : -(2 ^ 127) ≤ x) (h2 : x < 2 ^ 127) :
    wrapI128 x = x := by
  unfold wrapI128
  omega

theorem tdiv_nonneg_of_nonneg (p d : Int) (hp : 0 ≤ p) (hd : 0 ≤ d) :
    0 ≤ Int.tdiv p d := by
  rw [Int.tdiv_eq_ediv hp hd]
  exact Int.ediv_nonneg hp hd

theorem tdiv_le_of_le_mul (p d B : Int) (hd : 0 < d) (hB : 0 ≤ B) (h : p ≤ B * d) :
    Int.tdiv p d ≤ B := by
  by_cases hp : 0 ≤ p
  · rw [Int.tdiv_eq_ediv hp (le_of_lt hd)]
    calc p / d ≤ (B * d) / d := Int.ediv_le_ediv hd h
    _ = B := Int.mul_ediv_cancel B (ne_of_gt hd)
  · have hp2 : p < 0 := lt_of_not_le hp
    have hnn : 0 ≤ (-p).tdiv d := tdiv_nonneg_of_nonneg (-p) d (by omega) (le_of_lt hd)
    have hneg := Int.neg_tdiv p d
    omega

theorem neg_le_tdiv (p d B : Int) (hd : 0 < d) (hB : 0 ≤ B) (h : -(B * d) ≤ p) :
    -B ≤ Int.tdiv p d := by
  by_cases hp : 0 ≤ p
  · have := tdiv_nonneg_of_nonneg p d hp (le_of_lt hd)
    omega
  · have hp2 : p < 0 := lt_of_not_le hp
    have hle : (-p).tdiv d ≤ B := tdiv_le_of_le_mul (-p) d B hd hB (by omega)
    have hneg := Int.neg_tdiv p d
    omega

/-- Evaluation of `from_rational` on a finite base when nothing wraps: the
timestamp is a valid i64, the scaled product fits in i128, and the truncated
quotient fits in i64. -/
theorem from_rational_eval (t : Int) (s : Sign) (n d : Nat)
    (ht1 : -(2 ^ 63) ≤ t) (ht2 : t < 2 ^ 63)
    (hp1 : -(2 ^ 127) ≤ 1000 * t * (n : Int)) (hp2 : 1000 * t * (n : Int) < 2 ^ 127)
    (hq1 : -(2 ^ 63) ≤ Int.tdiv (1000 * t * (n : Int)) (d : Int))
    (hq2 : Int.tdiv (1000 * t * (n : Int)) (d : Int) < 2 ^ 63) :
    MediaTime.from_rational t (.rational s n d) =
      .ok (MediaTime.from_millis (Int.tdiv (1000 * t * (n : Int)) (d : Int))) := by
  unfold MediaTime.from_rational
  simp only [Fraction.numer, Fraction.denom]
  rw [wrapI128_eq_self (1000 * t) (by omega) (by omega),
      wrapI128_eq_self (1000 * t * (n : Int)) hp1 hp2,
      wrapI64_eq_self _ hq1 hq2]
  rfl

/-- C7: wide intermediate arithmetic — whenever the timestamp is a valid i64,
the denominator is a nonzero u64, and the exact rational value
`1000 * timestamp * num / den` lies within the i64 range, the conversion does
not overflow and yields exactly the truncated quotient in milliseconds, even
when the intermediate product `1000 * timestamp * num` exceeds the 64-bit
range (as the witness exhibits). -/
theorem from_rational_wide_exact (t : Int) (s : Sign) (n d : Nat)
    (ht1 : -(2 ^ 63) ≤ t) (ht2 : t < 2 ^ 63)
    (hd : 0 < d) (hd64 : (d : Int) ≤ 2 ^ 64 - 1)
    (hv1 : -(2 ^ 63) * (d : Int) ≤ 1000 * t * (n : Int))
    (hv2 : 1000 * t * (n : Int) ≤ (2 ^ 63 - 1) * (d : Int)) :
    MediaTime.from_rational t (.rational s n d) =
      .ok (MediaTime.from_millis (Int.tdiv (1000 * t * (n : Int)) (d : Int))) := by
  have hdz : (0 : Int) < (d : Int) := by exact_mod_cast hd
  have hp1 : -(2 ^ 127) ≤ 1000 * t * (n : Int) := by nlinarith
  have hp2 : 1000 * t * (n : Int) < 2 ^ 127 := by nlinarith
  have hq1 : -(2 ^ 63) ≤ Int.tdiv (1000 * t * (n : Int)) (d : Int) := by
    have := neg_le_tdiv (1000 * t * (n : Int)) (d : Int) (2 ^ 63) hdz (by positivity)
      (by nlinarith)
    omega
  have hq2 : Int.tdiv (1000 * t * (n : Int)) (d : Int) < 2 ^ 63 := by
    have := tdiv_le_of_le_mul (1000 * t * (n : Int)) (d : Int) (2 ^ 63 - 1) hdz
      (by norm_num) hv2
    omega
  exact from_rational_eval t s n d ht1 ht2 hp1 hp2 hq1 hq2

/-- Witness for C7: one second of a 100/100000 time base at tick 10^15 — the
intermediate product 10^20 exceeds the 64-bit range, yet the conversion is
exact. -/
theorem from_rational_wide_exact_witness :
    MediaTime.from_rational 1000000000000000 (Fraction.rational .plus 100 100000) =
      .ok (MediaTime.from_millis
        (Int.tdiv (1000 * 1000000000000000 * (100 : Int)) (100000 : Int))) ∧
    Int.tdiv (1000 * 1000000000000000 * (100 : Int)) (100000 : Int) =
      1000000000000000 ∧
    2 ^ 64 < 1000 * 1000000000000000 * (100 : Int) :=
  ⟨from_rational_wide_exact 1000000000000000 .plus 100 100000 (by decide) (by decide)
      (by decide) (by decide) (by decide) (by decide),
   by decide, by decide⟩

/-- C10 (amended): `from_rational` truncates toward zero — whenever the i128
product and the truncated i64 quotient are representable, the result is
exactly `from_millis` of the toward-zero quotient `(1000 * t * num) / den`,
discarding any sub-millisecond fraction. -/
theorem from_rational_truncation (t : Int) (s : Sign) (n d : Nat)
    (ht1 : -(2 ^ 63) ≤ t) (ht2 : t < 2 ^ 63) (hd : 0 < d)
    (hp1 : -(2 ^ 127) ≤ 1000 * t * (n : Int))
    (hp2 : 1000 * t * (n : Int) < 2 ^ 127)
    (hq1 : -(2 ^ 63) ≤ Int.tdiv (1000 * t * (n : Int)) (d : Int))
    (hq2 : Int.tdiv (1000 * t * (n : Int)) (d : Int) < 2 ^ 63) :
    MediaTime.from_rational t (.rational s n d) =
      .ok (MediaTime.from_millis (Int.tdiv (1000 * t * (n : Int)) (d : Int))) :=
  from_rational_eval t s n d ht1 ht2 hp1 hp2 hq1 hq2

/-- Witness for C10: tick -1 of a 1/90000 base is -1/90 of a millisecond and
truncates toward zero, to zero milliseconds (a floor would give -1). -/
theorem from_rational_truncation_witness :
    MediaTime.from_rational (-1) (Fraction.rational .plus 1 90000) =
      .ok (MediaTime.from_millis (Int.tdiv (1000 * (-1) * (1 : Int)) (90000 : Int))) ∧
    Int.tdiv (1000 * (-1) * (1 : Int)) (90000 : Int) = 0 :=
  ⟨from_rational_truncation (-1) .plus 1 90000 (by decide) (by decide) (by decide)
      (by decide) (by decide) (by decide) (by decide),
   by decide⟩

set_option maxRecDepth 10000 in
/-- Counterexample to C10 as stated: at the valid i64 timestamp 2^62 with the
valid finite base 1000/1 the truncated quotient does not fit in i64, so the
`as i64` cast wraps and the result is not `from_millis` of the quotient. -/
theorem from_rational_wrap_cex :
    MediaTime.from_rational (2 ^ 62) (Fraction.rational .plus 1000 1) ≠
      .ok (MediaTime.from_millis (Int.tdiv (1000 * 2 ^ 62 * (1000 : Int)) (1 : Int))) := by
  decide

set_option maxRecDepth 10000 in
/-- Counterexample to C6 as stated: under the common MPEG time base 1/90000
(denominator larger than 1000 times the numerator), the distinct ticks 0 and 1
convert to the same MediaTime, so the conversion is not strictly monotone. -/
theorem from_rational_collapse_cex :
    MediaTime.from_rational 0 (Fraction.new 1 90000) = .ok (MediaTime.from_millis 0) ∧
    MediaTime.from_rational 1 (Fraction.new 1 90000) = .ok (MediaTime.from_millis 0) ∧
    ¬ MediaTime.from_millis 0 < MediaTime.from_millis 0 := by
  decide

/-- Truncating division by a positive `d` is strictly monotone along the
multiples of any step `sv` at least `d`: the multiples are spaced at least a
full quotient interval apart, and a negative multiple is at most `-sv ≤ -d`,
so no two distinct multiples ever truncate to the same quotient, not even on
opposite sides of zero. -/
theorem tdiv_mul_strictMono (sv d t1 t2 : Int) (hd : 0 < d) (hs : d ≤ sv)
    (h12 : t1 < t2) : Int.tdiv (sv * t1) d < Int.tdiv (sv * t2) d := by
  have hs0 : 0 < sv := lt_of_lt_of_le hd hs
  have hstep : sv * t1 + d ≤ sv * t2 := by nlinarith
  rcases le_or_lt 0 t1 with h1 | h1
  · have hp1 : 0 ≤ sv * t1 := mul_nonneg (le_of_lt hs0) h1
    have hp2 : 0 ≤ sv * t2 := by omega
    rw [Int.tdiv_eq_ediv hp1 (le_of_lt hd), Int.tdiv_eq_ediv hp2 (le_of_lt hd)]
    have hplus := Int.add_mul_ediv_right (sv * t1) 1 (ne_of_gt hd)
    rw [one_mul] at hplus
    have hmono := Int.ediv_le_ediv hd hstep
    omega
  · rcases le_or_lt 0 t2 with h2 | h2
    · have hp1 : sv * t1 ≤ -d := by nlinarith
      have hq1 : Int.tdiv (sv * t1) d ≤ -1 := by
        have hneg := Int.neg_tdiv (sv * t1) d
        have h1' : 0 ≤ -(sv * t1) := by omega
        rw [Int.tdiv_eq_ediv h1' (le_of_lt hd)] at hneg
        have hone : 1 ≤ -(sv * t1) / d := by
          rw [Int.le_ediv_iff_mul_le hd]
          omega
        omega
      have hq2 : 0 ≤ Int.tdiv (sv * t2) d :=
        tdiv_nonneg_of_nonneg _ _ (mul_nonneg (le_of_lt hs0) h2) (le_of_lt hd)
      omega
    · have hp2 : 0 ≤ -(sv * t2) := by nlinarith
      have hstep2 : -(sv * t2) + d ≤ -(sv * t1) := by omega
      have hp1 : 0 ≤ -(sv * t1) := by omega
      have hplus := Int.add_mul_ediv_right (-(sv * t2)) 1 (ne_of_gt hd)
      rw [one_mul] at hplus
      have hmono := Int.ediv_le_ediv hd hstep2
      have e1 := Int.neg_tdiv (sv * t1) d
      have e2 := Int.neg_tdiv (sv * t2) d
      rw [Int.tdiv_eq_ediv hp1 (le_of_lt hd)] at e1
      rw [Int.tdiv_eq_ediv hp2 (le_of_lt hd)] at e2
      omega

/-- C6 (amended): for a fixed valid time base whose tick granularity is at
least one millisecond (`den ≤ 1000 * num`, nonzero u64 denominator), the
conversion is strictly monotone over all integer tick counts whose converted
values stay within the i64 millisecond range — negative ticks included, since
the scaled products are spaced by at least `den` and a negative product is at
most `-den`: distinct timestamps never collapse to equal MediaTime values. -/
theorem from_rational_strictMono (s : Sign) (n d : Nat) (t1 t2 : Int)
    (hd : 0 < d) (hd64 : (d : Int) ≤ 2 ^ 64 - 1)
    (hgran : (d : Int) ≤ 1000 * (n : Int))
    (h12 : t1 < t2)
    (hv1 : -(2 ^ 63) * (d : Int) ≤ 1000 * t1 * (n : Int))
    (hv2 : 1000 * t2 * (n : Int) ≤ (2 ^ 63 - 1) * (d : Int)) :
    ∃ m1 m2, MediaTime.from_rational t1 (.rational s n d) = .ok m1 ∧
      MediaTime.from_rational t2 (.rational s n d) = .ok m2 ∧ m1 < m2 := by
  have hdz : (0 : Int) < (d : Int) := by exact_mod_cast hd
  have hn1 : (1 : Int) ≤ (n : Int) := by omega
  have hs0 : (0 : Int) < 1000 * (n : Int) := by omega
  have hgran63 := mul_le_mul_of_nonneg_left hgran
    (show (0 : Int) ≤ 2 ^ 63 by positivity)
  have ht1l : -(2 ^ 63) ≤ t1 := by
    by_contra hc
    push_neg at hc
    nlinarith [mul_lt_mul_of_pos_left hc hs0]
  have ht2u : t2 < 2 ^ 63 := by
    by_contra hc
    push_neg at hc
    nlinarith [mul_le_mul_of_nonneg_right hc (le_of_lt hs0)]
  have ht1u : t1 < 2 ^ 63 := by omega
  have ht2l : -(2 ^ 63) ≤ t2 := by omega
  have hv2a : 1000 * t1 * (n : Int) ≤ (2 ^ 63 - 1) * (d : Int) := by
    nlinarith [mul_le_mul_of_nonneg_right (show t1 ≤ t2 by omega) (le_of_lt hs0)]
  have hv1b : -(2 ^ 63) * (d : Int) ≤ 1000 * t2 * (n : Int) := by
    nlinarith [mul_le_mul_of_nonneg_right (show t1 ≤ t2 by omega) (le_of_lt hs0)]
  refine ⟨_, _, from_rational_wide_exact t1 s n d ht1l ht1u hd hd64 hv1 hv2a,
    from_rational_wide_exact t2 s n d ht2l ht2u hd hd64 hv1b hv2, ?_⟩
  rw [MediaTime.lt_def]
  show Int.tdiv (1000 * t1 * (n : Int)) (d : Int) <
    Int.tdiv (1000 * t2 * (n : Int)) (d : Int)
  have hr1 : 1000 * t1 * (n : Int) = (1000 * (n : Int)) * t1 := by ring
  have hr2 : 1000 * t2 * (n : Int) = (1000 * (n : Int)) * t2 := by ring
  rw [hr1, hr2]
  exact tdiv_mul_strictMono (1000 * (n : Int)) (d : Int) t1 t2 hdz hgran h12

/-- Witness for C6 (amended) at the millisecond time base 1/1000: ticks -3 and
5 convert to strictly increasing MediaTime values across zero. -/
theorem from_rational_strictMono_witness :
    ∃ m1 m2, MediaTime.from_rational (-3) (Fraction.rational .plus 1 1000) = .ok m1 ∧
      MediaTime.from_rational 5 (Fraction.rational .plus 1 1000) = .ok m2 ∧ m1 < m2 :=
  from_rational_strictMono .plus 1 1000 (-3) 5 (by decide) (by decide) (by decide)
    (by decide) (by decide) (by decide)

theorem pad2_length : ∀ k : Nat, k < 100 → (pad2 (k : Int)).length = 2 := by decide

set_option maxRecDepth 8000 in
theorem pad3_length : ∀ k : Nat, k < 1000 → (pad3 (k : Int)).length = 3 := by decide

theorem natCast_tdiv (m k : Nat) :
    Int.tdiv (m : Int) (k : Int) = ((m / k : Nat) : Int) := by
  rw [Int.tdiv_eq_ediv (Int.natCast_nonneg m) (Int.natCast_nonneg k)]
  rfl

theorem natCast_tmod (m k : Nat) :
    Int.tmod (m : Int) (k : Int) = ((m % k : Nat) : Int) := by
  rw [Int.tmod_eq_emod (Int.natCast_nonneg m) (Int.natCast_nonneg k)]
  rfl

theorem display_nonneg_eq (n : Nat) :
    MediaTime.display ⟨(n : Int)⟩ = specTimestampFormat n := by
  simp only [MediaTime.display, specTimestampFormat, MediaTime.whole_seconds,
    MediaTime.subsec_milliseconds]
  rw [show ((1000 : Int)) = ((1000 : Nat) : Int) from rfl,
      show ((60 : Int)) = ((60 : Nat) : Int) from rfl,
      show ((3600 : Int)) = ((3600 : Nat) : Int) from rfl]
  simp only [natCast_tdiv, natCast_tmod, Nat.div_div_eq_div_mul, Nat.reduceMul,
    Nat.cast_eq_zero]

/-- C9: the textual rendering of a non-negative MediaTime equals the
spec-modelled cue-index format — `HH:MM:SS.mmm` with the hours field omitted
exactly when it is zero, two-digit zero-padded minutes and seconds, three-digit
milliseconds; under one hour the rendering is exactly the nine-character
`MM:SS.mmm` form. -/
theorem display_formats_timestamps (t : MediaTime) (h : 0 ≤ t.millis) :
    MediaTime.display t = specTimestampFormat t.millis.toNat ∧
    (t.millis < 3600000 → (MediaTime.display t).length = 9) := by
  obtain ⟨ms⟩ := t
  obtain ⟨n, rfl⟩ := Int.eq_ofNat_of_zero_le h
  constructor
  · rw [show ((n : Int).toNat) = n from Int.toNat_natCast n]
    exact display_nonneg_eq n
  · intro hlt
    rw [display_nonneg_eq n]
    have hn : n < 3600000 := by
      have : ((n : Int)) < 3600000 := hlt
      exact_mod_cast this
    simp only [specTimestampFormat]
    rw [if_pos (by omega : n / 3600000 = 0)]
    rw [String.length_append, String.length_append, String.length_append,
        String.length_append, pad2_length _ (by omega), pad2_length _ (by omega),
        pad3_length _ (by omega)]
    rfl

/-- Witness for C9: 754123 ms renders as the nine-character "12:34.123";
45296789 ms (over an hour) renders as "12:34:56.789". -/
theorem display_formats_timestamps_witness :
    MediaTime.display ⟨754123⟩ = specTimestampFormat (Int.toNat 754123) ∧
    (MediaTime.display ⟨754123⟩).length = 9 ∧
    MediaTime.display ⟨754123⟩ = "12:34.123" ∧
    MediaTime.display ⟨45296789⟩ = "12:34:56.789" :=
  ⟨(display_formats_timestamps ⟨754123⟩ (by decide)).1,
   (display_formats_timestamps ⟨754123⟩ (by decide)).2 (by decide),
   by decide, by decide⟩
theorem openChain_ne_nil (a : MediaTime) (as : List MediaTime) :
    openChain a as ≠ [] := by
  cases as <;> simp [openChain]

theorem getLast?_cons_ne_nil {α : Type} (x : α) (l : List α) (h : l ≠ []) :
    (x :: l).getLast? = l.getLast? := by
  cases l with
  | nil => exact absurd rfl h
  | cons y t => rfl

theorem openChain_getLast? (a : MediaTime) (as : List MediaTime) :
    (openChain a as).getLast? = some (as.getLastD a, none) := by
  induction as generalizing a with
  | nil => rfl
  | cons u rest ih =>
    rw [show openChain a (u :: rest) = (a, some u) :: openChain u rest from rfl]
    rw [getLast?_cons_ne_nil _ _ (openChain_ne_nil u rest), ih u, List.getLastD_cons]

theorem openChain_concat (a t : MediaTime) (as : List MediaTime) :
    openChain a (as ++ [t]) =
      ((openChain a as).dropLast ++ [(as.getLastD a, some t)]) ++ [(t, none)] := by
  induction as generalizing a with
  | nil => rfl
  | cons u rest ih =>
    rw [List.cons_append,
        show openChain a (u :: (rest ++ [t])) = (a, some u) :: openChain u (rest ++ [t])
          from rfl,
        ih u,
        show openChain a (u :: rest) = (a, some u) :: openChain u rest from rfl,
        List.dropLast_cons_of_ne_nil (openChain_ne_nil u rest), List.getLastD_cons]
    simp

theorem chainClosed_spec (a d : MediaTime) (as : List MediaTime) :
    (chainClosed a as d).map (fun p => (p.1, some p.2)) =
      (openChain a as).dropLast ++ [(as.getLastD a, some d)] := by
  induction as generalizing a with
  | nil => rfl
  | cons u rest ih =>
    rw [show chainClosed a (u :: rest) d = (a, u) :: chainClosed u rest d from rfl,
        List.map_cons, ih u,
        show openChain a (u :: rest) = (a, some u) :: openChain u rest from rfl,
        List.dropLast_cons_of_ne_nil (openChain_ne_nil u rest), List.getLastD_cons]
    simp

theorem chainClosed_eq_zip (a d : MediaTime) (as : List MediaTime) :
    chainClosed a as d = List.zip (a :: as) (as ++ [d]) := by
  induction as generalizing a with
  | nil => rfl
  | cons u rest ih =>
    rw [show chainClosed a (u :: rest) d = (a, u) :: chainClosed u rest d from rfl, ih u]
    rfl

theorem closeOpenCue_times (cues : List Cue) (a t : MediaTime) (as : List MediaTime)
    (h : cueTimes cues = openChain a as) :
    cueTimes (closeOpenCue cues t) =
      (openChain a as).dropLast ++ [(as.getLastD a, some t)] := by
  have hnn : cues ≠ [] := by
    intro he
    rw [he] at h
    exact openChain_ne_nil a as h.symm
  obtain ⟨c, hc⟩ := Option.isSome_iff_exists.mp (List.getLast?_isSome.mpr hnn)
  have hml : (cueTimes cues).getLast? = some (c.start, c.end_) := by
    unfold cueTimes
    rw [List.getLast?_map, hc]
    rfl
  rw [h, openChain_getLast? a as] at hml
  have hpair := Option.some.inj hml
  have hcs : c.start = as.getLastD a := (congrArg Prod.fst hpair).symm
  have hce : c.end_ = none := (congrArg Prod.snd hpair).symm
  have h' : List.map (fun c => (c.start, c.end_)) cues = openChain a as := h
  unfold closeOpenCue
  rw [hc]
  show cueTimes (if c.end_ = none then
      cues.dropLast ++ [{ c with end_ := some t }] else cues) =
    (openChain a as).dropLast ++ [(as.getLastD a, some t)]
  rw [if_pos hce]
  unfold cueTimes
  rw [List.map_append, List.map_dropLast, h', hcs]
  rfl

theorem strictlyIncreasing_get (l : List MediaTime)
    (h : strictlyIncreasing l = true) (i : Nat) (hi : i + 1 < l.length) :
    l.get ⟨i, by omega⟩ < l.get ⟨i + 1, hi⟩ := by
  induction l generalizing i with
  | nil => simp at hi
  | cons x lt ih =>
    cases lt with
    | nil => simp at hi
    | cons y rest =>
      rw [show strictlyIncreasing (x :: y :: rest) =
            (decide (x < y) && strictlyIncreasing (y :: rest)) from rfl,
          Bool.and_eq_true, decide_eq_true_eq] at h
      cases i with
      | zero => exact h.1
      | succ j =>
        have hj : j + 1 < (y :: rest).length := by
          simp at hi ⊢
          omega
        exact ih h.2 j hj

theorem advanceSlot_bounds (nh nv : Nat) (s : Slot) (hc : s.col < nh) (hr : s.row < nv) :
    (advanceSlot nh s).col < nh ∧ (advanceSlot nh s).row ≤ nv := by
  unfold advanceSlot
  by_cases h : s.col + 1 = nh
  · rw [if_pos h]
    exact ⟨by show 0 < nh; omega, by show s.row + 1 ≤ nv; omega⟩
  · rw [if_neg h]
    exact ⟨by show s.col + 1 < nh; omega, by show s.row ≤ nv; omega⟩

theorem add_image_step (nh nv : Nat) (iv : MediaTime) (tile : Nat × Nat)
    (a t : MediaTime) (as : List MediaTime) (m : SpritesheetManager)
    (hnh : 0 < nh) (hnv : 0 < nv)
    (hinv : ManagerInv nh nv iv tile a as m) :
    (m.add_image t tile).1 = none ∧
    ManagerInv nh nv iv tile a (as ++ [t]) (m.add_image t tile).2 := by
  obtain ⟨hst, hh, hv, hiv, htile, hcues, hlast, rest, sheet, hsheets, hcol, hrow⟩ := hinv
  have hcue : ∀ (idx : Nat) (r : Nat × Nat × Nat × Nat),
      cueTimes (closeOpenCue m.cues t ++ [(⟨t, none, idx, r⟩ : Cue)]) =
        openChain a (as ++ [t]) := by
    intro idx r
    unfold cueTimes
    rw [List.map_append]
    have hco := closeOpenCue_times m.cues a t as hcues
    unfold cueTimes at hco
    rw [hco, openChain_concat]
    rfl
  by_cases hfull : sheet.next_slot.row = m.num_vertical
  · have heval : m.add_image t tile =
        (none, { m with
          sheets := (rest ++ [sheet]) ++
            [⟨sheet.sheet_index + 1, advanceSlot m.num_horizontal ⟨0, 0⟩⟩]
          cues := closeOpenCue m.cues t ++
            [⟨t, none, sheet.sheet_index + 1, rectForSlot tile ⟨0, 0⟩⟩]
          last_timestamp := t
          trace := m.trace ++ [(sheet.sheet_index + 1, ⟨0, 0⟩)] }) := by
      simp only [SpritesheetManager.add_image, hst, htile, hsheets,
        List.getLast?_concat, SpriteSheet.isFull, beq_iff_eq, SpriteSheet.place]
      rw [if_neg (by simp), if_pos hfull]
      simp only [List.getLast?_concat, List.dropLast_concat]
      rw [if_neg (by show ¬ (0 = m.num_vertical); rw [hv]; omega)]
    rw [heval]
    refine ⟨rfl, hst, hh, hv, hiv, htile, hcue _ _,
      (List.getLastD_concat _ _ _).symm, rest ++ [sheet],
      ⟨sheet.sheet_index + 1, advanceSlot m.num_horizontal ⟨0, 0⟩⟩, rfl, ?_, ?_⟩
    · show (advanceSlot m.num_horizontal ⟨0, 0⟩).col < nh
      rw [hh]
      exact (advanceSlot_bounds nh nv ⟨0, 0⟩ hnh hnv).1
    · show (advanceSlot m.num_horizontal ⟨0, 0⟩).row ≤ nv
      rw [hh]
      exact (advanceSlot_bounds nh nv ⟨0, 0⟩ hnh hnv).2
  · have heval : m.add_image t tile =
        (none, { m with
          sheets := rest ++ [{ sheet with
            next_slot := advanceSlot m.num_horizontal sheet.next_slot }]
          cues := closeOpenCue m.cues t ++
            [⟨t, none, sheet.sheet_index, rectForSlot tile sheet.next_slot⟩]
          last_timestamp := t
          trace := m.trace ++ [(sheet.sheet_index, sheet.next_slot)] }) := by
      simp only [SpritesheetManager.add_image, hst, htile, hsheets,
        List.getLast?_concat, SpriteSheet.isFull, beq_iff_eq]
      rw [if_neg (by simp), if_neg hfull]
      simp only [List.getLast?_concat, SpriteSheet.place, List.dropLast_concat]
      rw [if_neg hfull]
    rw [heval]
    have hrow2 : sheet.next_slot.row < nv := by
      rw [hv] at hfull
      omega
    have hbounds := advanceSlot_bounds nh nv sheet.next_slot hcol hrow2
    refine ⟨rfl, hst, hh, hv, hiv, htile, hcue _ _,
      (List.getLastD_concat _ _ _).symm, rest,
      { sheet with next_slot := advanceSlot m.num_horizontal sheet.next_slot }, rfl,
      ?_, ?_⟩
    · show (advanceSlot m.num_horizontal sheet.next_slot).col < nh
      rw [hh]
      exact hbounds.1
    · show (advanceSlot m.num_horizontal sheet.next_slot).row ≤ nv
      rw [hh]
      exact hbounds.2

theorem driverStep_first (src : Nat × Nat) (msz nh nv : Nat) (iv : MediaTime)
    (t0 : MediaTime) (hnh : 0 < nh) (hnv : 0 < nv) :
    ManagerInv nh nv iv (resolveTileSize src.1 src.2 msz) t0 []
      (driverStep src (SpritesheetManager.new msz nh nv iv) t0) := by
  have heval : driverStep src (SpritesheetManager.new msz nh nv iv) t0 =
      { max_size := msz, num_horizontal := nh, num_vertical := nv, frame_interval := iv,
        state := .active, tile_size := some (resolveTileSize src.1 src.2 msz),
        sheets := [⟨0, advanceSlot nh ⟨0, 0⟩⟩],
        cues := [⟨t0, none, 0, rectForSlot (resolveTileSize src.1 src.2 msz) ⟨0, 0⟩⟩],
        last_timestamp := t0, trace := [(0, ⟨0, 0⟩)] } := by
    simp only [driverStep, SpritesheetManager.new, SpritesheetManager.fulfils_frame_interval,
      SpritesheetManager.initialized, SpritesheetManager.initialize,
      SpritesheetManager.add_image, closeOpenCue, SpriteSheet.isFull, SpriteSheet.place,
      beq_iff_eq, bne_self_eq_false, Bool.false_eq_true, if_false, if_true,
      Option.getD_some, List.getLast?_singleton, eq_self_iff_true, not_true, ne_eq,
      List.dropLast_single, List.nil_append]
    rw [if_neg (by omega : ¬ (0 = nv))]
    simp only [List.getLast?_singleton, List.dropLast_single]
    rw [if_neg (by omega : ¬ (0 = nv))]
    rfl
  rw [heval]
  exact ⟨rfl, rfl, rfl, rfl, rfl, rfl, rfl, [], ⟨0, advanceSlot nh ⟨0, 0⟩⟩, rfl,
    (advanceSlot_bounds nh nv ⟨0, 0⟩ hnh hnv).1, (advanceSlot_bounds nh nv ⟨0, 0⟩ hnh hnv).2⟩

theorem runSamples_inv (src : Nat × Nat) (nh nv : Nat) (iv : MediaTime) (tile : Nat × Nat)
    (ts : List MediaTime) :
    ∀ (m : SpritesheetManager) (a : MediaTime) (as : List MediaTime),
    0 < nh → 0 < nv →
    ManagerInv nh nv iv tile a as m →
    spacedFrom iv m.last_timestamp ts = true →
    ManagerInv nh nv iv tile a (as ++ ts) (runSamples src m ts) := by
  induction ts with
  | nil =>
    intro m a as _ _ hinv _
    simpa using hinv
  | cons t rest ih =>
    intro m a as hnh hnv hinv hsp
    have hsp' := hsp
    rw [show spacedFrom iv m.last_timestamp (t :: rest) =
          (decide (iv ≤ t - m.last_timestamp) && spacedFrom iv t rest) from rfl,
        Bool.and_eq_true] at hsp'
    obtain ⟨hst, hh, hv, hiv, htile, hcues, hlast, hex⟩ := hinv
    have hful : m.fulfils_frame_interval t = true := by
      unfold SpritesheetManager.fulfils_frame_interval
      rw [hst, hiv]
      exact hsp'.1
    have hinit : m.initialized = true := by
      unfold SpritesheetManager.initialized
      rw [hst]
      rfl
    have hds : driverStep src m t = (m.add_image t tile).2 := by
      unfold driverStep
      rw [hful, hinit]
      simp only [if_true, htile, Option.getD_some]
    have hstep := add_image_step nh nv iv tile a t as m hnh hnv
      ⟨hst, hh, hv, hiv, htile, hcues, hlast, hex⟩
    have hlast2 : ((m.add_image t tile).2).last_timestamp = t := by
      have := hstep.2.2.2.2.2.2.2.1
      rw [this, List.getLastD_concat]
    have hsp2 : spacedFrom iv ((m.add_image t tile).2).last_timestamp rest = true := by
      rw [hlast2]
      exact hsp'.2
    have hrec := ih (m.add_image t tile).2 a (as ++ [t]) hnh hnv hstep.2 hsp2
    rw [show runSamples src m (t :: rest) = runSamples src (driverStep src m t) rest from rfl,
        hds, show as ++ t :: rest = (as ++ [t]) ++ rest from by simp]
    exact hrec

theorem map_get_eq {α β : Type} (f : α → β) (l : List α) (L : List β)
    (h : l.map f = L) (i : Nat) (hi : i < l.length) (hi2 : i < L.length) :
    f (l.get ⟨i, hi⟩) = L.get ⟨i, hi2⟩ := by
  subst h
  simp


/-- C1: for every nonempty strictly increasing sample sequence in which each
sample keeps the configured interval from its predecessor (so each is
accepted), closing the manager afterwards at a total duration beyond the last
sample succeeds and yields a contiguous, gap-free cue list: one cue per
accepted sample, cue i ending where cue i+1 starts, the first cue starting at
the first accepted timestamp, the last cue ending at the total duration, every
closed cue with start strictly before end, and cue starts strictly
ascending. -/
theorem cue_partition_gapfree (src : Nat × Nat) (msz nh nv : Nat) (iv : MediaTime)
    (t0 : MediaTime) (ts : List MediaTime) (d : MediaTime)
    (hnh : 0 < nh) (hnv : 0 < nv)
    (hsp : spacedFrom iv t0 ts = true)
    (hmono : strictlyIncreasing (t0 :: ts) = true)
    (hend : ∀ x ∈ t0 :: ts, x < d) :
    (closedRun src msz nh nv iv (t0 :: ts) d).1 = none ∧
    (closedRun src msz nh nv iv (t0 :: ts) d).2.cues.length = ts.length + 1 ∧
    (∀ i, ∀ hi : i + 1 < (closedRun src msz nh nv iv (t0 :: ts) d).2.cues.length,
      ((closedRun src msz nh nv iv (t0 :: ts) d).2.cues.get
          ⟨i, Nat.lt_of_succ_lt hi⟩).end_ =
        some (((closedRun src msz nh nv iv (t0 :: ts) d).2.cues.get
          ⟨i + 1, hi⟩).start)) ∧
    (∀ h0 : 0 < (closedRun src msz nh nv iv (t0 :: ts) d).2.cues.length,
      ((closedRun src msz nh nv iv (t0 :: ts) d).2.cues.get ⟨0, h0⟩).start = t0) ∧
    (∀ h0 : 0 < (closedRun src msz nh nv iv (t0 :: ts) d).2.cues.length,
      ((closedRun src msz nh nv iv (t0 :: ts) d).2.cues.get
          ⟨(closedRun src msz nh nv iv (t0 :: ts) d).2.cues.length - 1,
            Nat.sub_lt h0 Nat.one_pos⟩).end_ = some d) ∧
    (∀ c ∈ (closedRun src msz nh nv iv (t0 :: ts) d).2.cues,
      ∃ e, c.end_ = some e ∧ c.start < e) ∧
    (∀ i, ∀ hi : i + 1 < (closedRun src msz nh nv iv (t0 :: ts) d).2.cues.length,
      ((closedRun src msz nh nv iv (t0 :: ts) d).2.cues.get
          ⟨i, Nat.lt_of_succ_lt hi⟩).start <
        ((closedRun src msz nh nv iv (t0 :: ts) d).2.cues.get ⟨i + 1, hi⟩).start) := by
  have hinv0 := driverStep_first src msz nh nv iv t0 hnh hnv
  have hlast0 : (driverStep src (SpritesheetManager.new msz nh nv iv)
      t0).last_timestamp = t0 := by
    have := hinv0.2.2.2.2.2.2.1
    simpa using this
  have hinv := runSamples_inv src nh nv iv (resolveTileSize src.1 src.2 msz) ts
    (driverStep src (SpritesheetManager.new msz nh nv iv) t0) t0 [] hnh hnv hinv0
    (by rw [hlast0]; exact hsp)
  rw [List.nil_append] at hinv
  obtain ⟨hst, hh, hv, hiv, htile, hcues, hlast, hex⟩ := hinv
  have hlt : ts.getLastD t0 < d := hend _ (List.getLastD_mem_cons ts t0)
  have hef : closedRun src msz nh nv iv (t0 :: ts) d =
      (none, { runSamples src (driverStep src (SpritesheetManager.new msz nh nv iv) t0)
        ts with
        state := .closed,
        cues := closeOpenCue (runSamples src (driverStep src
          (SpritesheetManager.new msz nh nv iv) t0) ts).cues d }) := by
    show (runSamples src (driverStep src (SpritesheetManager.new msz nh nv iv) t0)
        ts).end_frame d = _
    unfold SpritesheetManager.end_frame
    rw [hst, if_neg]
    rw [hlast, MediaTime.lt_def]
    rw [MediaTime.lt_def] at hlt
    omega
  rw [hef]
  dsimp only
  set cs := closeOpenCue (runSamples src (driverStep src
    (SpritesheetManager.new msz nh nv iv) t0) ts).cues d with hcs
  have hzip : cueTimes cs =
      (List.zip (t0 :: ts) (ts ++ [d])).map (fun p => (p.1, some p.2)) := by
    rw [hcs, closeOpenCue_times _ t0 d ts hcues, ← chainClosed_spec, chainClosed_eq_zip]
  have hlen : cs.length = ts.length + 1 := by
    have h1 : (cueTimes cs).length = cs.length := List.length_map _ _
    rw [hzip] at h1
    simpa [List.length_zip] using h1.symm
  have hbA : ∀ i, i < cs.length → i < (t0 :: ts).length := by
    intro i hi
    simp only [List.length_cons]
    omega
  have hbB : ∀ i, i < cs.length → i < (ts ++ [d]).length := by
    intro i hi
    simp only [List.length_append, List.length_cons, List.length_nil]
    omega
  have hcomp : ∀ i, ∀ hi : i < cs.length,
      (cs.get ⟨i, hi⟩).start = (t0 :: ts).get ⟨i, hbA i hi⟩ ∧
      (cs.get ⟨i, hi⟩).end_ = some ((ts ++ [d]).get ⟨i, hbB i hi⟩) := by
    intro i hi
    have hi2 : i < ((List.zip (t0 :: ts) (ts ++ [d])).map
        (fun p => (p.1, some p.2))).length := by
      simp only [List.length_map, List.length_zip, List.length_cons, List.length_append,
        List.length_nil]
      omega
    have hzip' : cs.map (fun c => (c.start, c.end_)) =
        (List.zip (t0 :: ts) (ts ++ [d])).map (fun p => (p.1, some p.2)) := hzip
    have h1 := map_get_eq (fun c => (c.start, c.end_)) cs _ hzip' i hi hi2
    simp only [List.get_eq_getElem, List.getElem_map, List.getElem_zip] at h1
    exact ⟨by rw [List.get_eq_getElem]; exact congrArg Prod.fst h1,
      by rw [List.get_eq_getElem]; exact congrArg Prod.snd h1⟩
  refine ⟨rfl, hlen, ?_, ?_, ?_, ?_, ?_⟩
  · intro i hi
    have hi2 : i < cs.length := Nat.lt_of_succ_lt hi
    rw [(hcomp i hi2).2, (hcomp (i + 1) hi).1]
    congr 1
    rw [List.get_eq_getElem, List.get_eq_getElem]
    have hits : i < ts.length := by omega
    rw [List.getElem_append_left hits]
    rfl
  · intro h0
    rw [(hcomp 0 h0).1]
    rfl
  · intro h0
    have hi : cs.length - 1 < cs.length := Nat.sub_lt h0 Nat.one_pos
    rw [(hcomp (cs.length - 1) hi).2]
    congr 1
    rw [List.get_eq_getElem]
    have hieq : cs.length - 1 = ts.length := by omega
    simp only [hieq]
    exact List.getElem_concat_length ts d ts.length rfl _
  · intro c hc
    obtain ⟨⟨i, hi⟩, rfl⟩ := List.mem_iff_get.mp hc
    refine ⟨(ts ++ [d]).get ⟨i, hbB i hi⟩, (hcomp i hi).2, ?_⟩
    rw [(hcomp i hi).1]
    by_cases hits : i < ts.length
    · have hsucc : i + 1 < (t0 :: ts).length := by
        simp only [List.length_cons]
        omega
      have h2 : (ts ++ [d]).get ⟨i, hbB i hi⟩ = (t0 :: ts).get ⟨i + 1, hsucc⟩ := by
        rw [List.get_eq_getElem, List.get_eq_getElem, List.getElem_append_left hits]
        rfl
      rw [h2]
      exact strictlyIncreasing_get (t0 :: ts) hmono i hsucc
    · have hieq : i = ts.length := by omega
      have h2 : (ts ++ [d]).get ⟨i, hbB i hi⟩ = d := by
        rw [List.get_eq_getElem]
        simp only [hieq]
        exact List.getElem_concat_length ts d ts.length rfl _
      rw [h2]
      exact hend _ (List.get_mem _ _ _)
  · intro i hi
    have hi2 : i < cs.length := Nat.lt_of_succ_lt hi
    rw [(hcomp i hi2).1, (hcomp (i + 1) hi).1]
    exact strictlyIncreasing_get (t0 :: ts) hmono i (hbA (i + 1) hi)

/-- Witness for C1: three samples at 0, 10 and 20 ms with a 10 ms interval,
closed at 30 ms, produce exactly the cues 0-10, 10-20 and 20-30 ms. -/
theorem cue_partition_gapfree_witness :
    (closedRun (320, 240) 160 3 2 (MediaTime.from_millis 10)
      [MediaTime.from_millis 0, MediaTime.from_millis 10, MediaTime.from_millis 20]
      (MediaTime.from_millis 30)).1 = none ∧
    cueTimes (closedRun (320, 240) 160 3 2 (MediaTime.from_millis 10)
      [MediaTime.from_millis 0, MediaTime.from_millis 10, MediaTime.from_millis 20]
      (MediaTime.from_millis 30)).2.cues =
      [(MediaTime.from_millis 0, some (MediaTime.from_millis 10)),
       (MediaTime.from_millis 10, some (MediaTime.from_millis 20)),
       (MediaTime.from_millis 20, some (MediaTime.from_millis 30))] :=
  ⟨(cue_partition_gapfree (320, 240) 160 3 2 (MediaTime.from_millis 10)
      (MediaTime.from_millis 0) [MediaTime.from_millis 10, MediaTime.from_millis 20]
      (MediaTime.from_millis 30) (by decide) (by decide) (by decide) (by decide)
      (by decide)).1,
   by decide⟩

set_option maxRecDepth 4000 in
/-- Counterexample to C1 as stated: `end_frame` succeeds when the total
duration equals the last accepted sample (it fails only when the duration is
strictly earlier), and the final cue is then closed with `end = start`,
violating the claimed `start < end` invariant: one sample at 0 ms closed at a
total duration of 0 ms yields the zero-length cue (0, 0). -/
theorem cue_zero_length_cex :
    (closedRun (320, 240) 160 3 2 (MediaTime.from_millis 10)
      [MediaTime.from_millis 0] (MediaTime.from_millis 0)).1 = none ∧
    cueTimes (closedRun (320, 240) 160 3 2 (MediaTime.from_millis 10)
      [MediaTime.from_millis 0] (MediaTime.from_millis 0)).2.cues =
      [(MediaTime.from_millis 0, some (MediaTime.from_millis 0))] ∧
    ¬ MediaTime.from_millis 0 < MediaTime.from_millis 0 := by
  decide
